import Mathlib

/-!
Verification development for the crypto-pandas bidirectional normalization
engine: the response-to-table normalizer, the market constraint resolver,
the order preprocessor, and the bounded-concurrency batch dispatcher.

The Python implementation modules are not part of the source tree available
here (only the README, changelog and documentation are), so every operation
below is modelled from the specification text and settled against that
model.
-/

/-! ## Field-name normalization (camelCase to snake_case) -/

/-- ASCII uppercase test on the code point, `A`..`Z`. -/
def isUpperAscii (c : Char) : Bool := 65 ≤ c.toNat && c.toNat ≤ 90

/-- Modelled from the spec: one step of rewriting mixed-case field names to the
lower, underscore-separated convention (missing module `crypto_pandas` column
mapping helpers). An uppercase letter becomes an underscore followed by its
lowercase form; other characters pass through. -/
def snakeChar (c : Char) : List Char :=
  if isUpperAscii c then ['_', Char.ofNat (c.toNat + 32)] else [c]

/-- Modelled from the spec: deterministic rewriting of a mixed-case field name
to the single lower, underscore-separated convention. -/
def toSnake (s : String) : String := ⟨s.data.flatMap snakeChar⟩

/-! ## JSON-compatible cell values and numeric / temporal coercion -/

/-- A JSON-compatible cell value as delivered by the exchange client, plus the
canonical coerced forms (`num` for floats, `timeV` for temporal values). -/
inductive Value where
  | num (q : ℚ)
  | str (s : String)
  | boolV (b : Bool)
  | timeV (t : ℤ)
  | dict (entries : List (String × Value))
  | null

/-- A raw record: an ordered mapping from string keys to values. -/
abbrev Record : Type := List (String × Value)

/-- Decimal digit value of a character, if it is a digit. -/
def digitVal (c : Char) : Option ℕ :=
  if 48 ≤ c.toNat ∧ c.toNat ≤ 57 then some (c.toNat - 48) else none

def parseDigitsAux : List Char → ℕ → Option ℕ
  | [], acc => some acc
  | c :: cs, acc =>
    match digitVal c with
    | some d => parseDigitsAux cs (acc * 10 + d)
    | none => none

/-- Parse a nonempty all-digit character list into a natural number. -/
def parseDigits (l : List Char) : Option ℕ :=
  if l.isEmpty then none else parseDigitsAux l 0

/-- Parse an unsigned decimal literal (`123` or `123.45`) into a rational. -/
def parseUnsignedDecimal (l : List Char) : Option ℚ :=
  match l.splitOn '.' with
  | [ip] => (parseDigits ip).map fun n => (n : ℚ)
  | [ip, fp] =>
    match parseDigits ip, parseDigits fp with
    | some n, some f => some ((n : ℚ) + (f : ℚ) / (10 : ℚ) ^ fp.length)
    | _, _ => none
  | _ => none

/-- Modelled from the spec: parse a decimal string to a float, unparseable
strings becoming missing (missing module numeric coercion used by the
response normalizer). -/
def parseDecimal (s : String) : Option ℚ :=
  match s.data with
  | '-' :: rest => (parseUnsignedDecimal rest).map (fun q => -q)
  | l => parseUnsignedDecimal l

/-- Modelled from the spec: coerce a registered numeric field value to a
float, treating non-numeric or unparseable values as missing rather than
failing. -/
def coerceNum : Value → Value
  | .num q => .num q
  | .str s =>
    match parseDecimal s with
    | some q => .num q
    | none => .null
  | .boolV _ => .null
  | .timeV _ => .null
  | .dict _ => .null
  | .null => .null

/-- Modelled from the spec: coerce truthy/falsy JSON representations of a
registered boolean field. -/
def coerceBool : Value → Value
  | .boolV b => .boolV b
  | .str s =>
    if s = "true" ∨ s = "True" then .boolV true
    else if s = "false" ∨ s = "False" then .boolV false
    else .null
  | .num q => .boolV (decide (q ≠ 0))
  | .timeV _ => .null
  | .dict _ => .null
  | .null => .null

/-- Modelled from the spec: parse a registered datetime field to a temporal
value, preserving missing as a null timestamp rather than raising. -/
def coerceDatetime : Value → Value
  | .timeV t => .timeV t
  | .num q => .timeV ⌊q⌋
  | .str s =>
    match parseDecimal s with
    | some q => .timeV ⌊q⌋
    | none => .null
  | .boolV _ => .null
  | .dict _ => .null
  | .null => .null

/-- Whether a value is a nested mapping. -/
def Value.isDict : Value → Bool
  | .dict _ => true
  | _ => false

/-! ## Field taxonomy registry -/

/-- Modelled from the spec: the closed enumeration of response kinds selecting
which field taxonomy applies (missing module `crypto_pandas` preprocessors).
`other` is the fall-back for unknown kinds, with a minimal default taxonomy. -/
inductive Kind where
  | orders
  | trades
  | balances
  | tickers
  | ohlcv
  | orderBook
  | fundingRates
  | other
deriving DecidableEq

/-- Modelled from the spec: field names (canonical snake_case) registered as
numeric per response kind. -/
def numericFields : Kind → List String
  | .orders => ["price", "amount", "cost", "filled", "remaining", "average"]
  | .trades => ["price", "amount", "cost"]
  | .balances => ["free", "used", "total"]
  | .tickers => ["last", "bid", "ask", "funding_rate", "estimated_settle_price"]
  | .ohlcv => ["open", "high", "low", "close", "volume"]
  | .orderBook => ["price", "qty", "nonce"]
  | .fundingRates => ["funding_rate", "estimated_settle_price", "interest_rate"]
  | .other => []

/-- Modelled from the spec: field names registered as boolean per kind. -/
def boolFields : Kind → List String
  | .orders => ["reduce_only", "post_only"]
  | _ => []

/-- Modelled from the spec: field names registered as datetime-like per kind. -/
def datetimeFields : Kind → List String
  | .orders => ["timestamp", "datetime", "last_trade_timestamp"]
  | .trades => ["timestamp", "datetime"]
  | .balances => ["timestamp", "datetime"]
  | .tickers => ["timestamp", "datetime", "funding_timestamp", "next_funding_datetime"]
  | .ohlcv => ["timestamp"]
  | .orderBook => ["timestamp", "datetime"]
  | .fundingRates => ["timestamp", "datetime", "funding_datetime", "next_funding_datetime"]
  | .other => []

/-- Modelled from the spec: nested-object fields flattened one level into
`parent_child` columns. -/
def nestedFields : Kind → List String
  | .orders => ["fee"]
  | .trades => ["fee"]
  | _ => []

/-- Coerce a value according to the semantic class its canonical field name is
registered under; unknown fields pass through untyped. -/
def coerceFor (k : Kind) (key : String) (v : Value) : Value :=
  if key ∈ numericFields k then coerceNum v
  else if key ∈ boolFields k then coerceBool v
  else if key ∈ datetimeFields k then coerceDatetime v
  else v

/-! ## Response normalizer -/

/-- Modelled from the spec: normalize one raw record entry — rewrite the key
to snake_case, flatten a registered nested-object field one level into
`parent_child` entries, and coerce values by semantic class. -/
def normalizeEntry (k : Kind) (e : String × Value) : List (String × Value) :=
  match e.2 with
  | .dict m =>
    if toSnake e.1 ∈ nestedFields k then
      m.map fun ce =>
        ((toSnake e.1 ++ "_" ++ toSnake ce.1),
          coerceFor k (toSnake e.1 ++ "_" ++ toSnake ce.1) ce.2)
    else [(toSnake e.1, coerceFor k (toSnake e.1) (.dict m))]
  | v => [(toSnake e.1, coerceFor k (toSnake e.1) v)]

/-- The (source field, target column) pairs contributed by one raw entry,
used for schema-conflict detection and reporting. -/
def entrySources (k : Kind) (e : String × Value) : List (String × String) :=
  match e.2 with
  | .dict m =>
    if toSnake e.1 ∈ nestedFields k then
      m.map fun ce => (e.1 ++ "." ++ ce.1, toSnake e.1 ++ "_" ++ toSnake ce.1)
    else [(e.1, toSnake e.1)]
  | _ => [(e.1, toSnake e.1)]

/-- Modelled from the spec: normalize one raw record (pure transform producing
new tabular entries; the input is never mutated). -/
def normalizeRecord (k : Kind) (r : Record) : Record :=
  r.flatMap (normalizeEntry k)

/-- All (source field, target column) pairs of one raw record. -/
def sourceTargets (k : Kind) (r : Record) : List (String × String) :=
  r.flatMap (entrySources k)

/-- Find the first pair of source fields whose target column names collide. -/
def findCollision : List (String × String) → Option (String × String)
  | [] => none
  | (s, t) :: rest =>
    match rest.find? (fun e => e.2 == t) with
    | some e2 => some (s, e2.1)
    | none => findCollision rest

/-- A fatal schema conflict: two raw field names of one response normalize to
the same target column; reported with both offending source names. -/
structure SchemaConflict where
  kind : Kind
  field1 : String
  field2 : String
deriving DecidableEq

/-- Normalize one record, reporting a schema conflict instead of silently
merging colliding columns. -/
def normalizeRecordChecked (k : Kind) (r : Record) : Except SchemaConflict Record :=
  match findCollision (sourceTargets k r) with
  | some (a, b) => .error ⟨k, a, b⟩
  | none => .ok (normalizeRecord k r)

/-- Association-list lookup of a column value inside one row. -/
def lookupVal (c : String) : Record → Option Value
  | [] => none
  | (k, v) :: rest => if k = c then some v else lookupVal c rest

/-- A table cell is missing when the column is absent from the row or its
value is null. -/
def isMissing : Option Value → Bool
  | none => true
  | some .null => true
  | some _ => false

/-- A column is entirely missing when every row's cell for it is missing;
evaluated on coerced canonical values. -/
def allMissing (rows : List Record) (c : String) : Bool :=
  rows.all fun r => isMissing (lookupVal c r)

/-- Modelled from the spec: remove every column whose values are entirely
missing across all rows (the `dropna_fields` behavior, default true). -/
def dropna_fields (rows : List Record) : List Record :=
  rows.map fun r => r.filter fun e => !allMissing rows e.1

/-- Traverse a list with a fallible transform; the first failure is fatal and
propagates, mirroring structural error propagation in the normalizer. -/
def mapExcept (f : α → Except ε β) : List α → Except ε (List β)
  | [] => .ok []
  | a :: as =>
    match f a with
    | .error e => .error e
    | .ok b => (mapExcept f as).map (b :: ·)

/-- Modelled from the spec: `normalize(records, kind, drop_empty)` — coerce
and flatten every record, report schema conflicts fatally, and prune
all-missing columns after type coercion when requested. -/
def CryptoPandas.normalize (k : Kind) (dropEmpty : Bool) (records : List Record) :
    Except SchemaConflict (List Record) :=
  (mapExcept (normalizeRecordChecked k) records).map
    fun rows => if dropEmpty then dropna_fields rows else rows

/-- The column set of a table: every key occurring in some row, deduplicated. -/
def tableColumns (rows : List Record) : List String :=
  (rows.flatMap fun r => r.map Prod.fst).dedup

/-- Raw funding-rate records in which every row's `fundingRate` cell is
missing after coercion: one is null, the other an unparseable string. -/
def c6raw : List Record :=
  [[("fundingRate", .null), ("symbol", .str "BNB/USDT")],
   [("fundingRate", .str "n/a"), ("symbol", .str "ETH/USDT")]]

/-- The coerced rows of `c6raw`: the `funding_rate` column is present and
entirely null. -/
def c6rows : List Record :=
  [[("funding_rate", .null), ("symbol", .str "BNB/USDT")],
   [("funding_rate", .null), ("symbol", .str "ETH/USDT")]]

/-- A record whose raw fields `fundingRate` and `funding_rate` both normalize
to the target column `funding_rate`. -/
def c9record : Record := [("fundingRate", Value.null), ("funding_rate", Value.null)]

/-! ## Concurrent batch dispatcher -/

/-- Modelled from the spec: the flat fan-out of `async_concat_results` — one
result slot per input call, each completing call writing its result into the
slot of its input position. `order` is the completion order of the underlying
concurrent calls; a slot is `none` while its call has not completed. -/
def async_concat_results (calls : List α) (run : α → β) (order : List ℕ) :
    List (Option β) :=
  order.foldl (fun acc i =>
    match calls[i]? with
    | some c => acc.set i (some (run c))
    | none => acc) (List.replicate calls.length none)

/-- Look up the result slot at nested position (i, j). -/
def get2 (acc : List (List γ)) (i j : ℕ) : Option γ :=
  acc[i]?.bind fun row => row[j]?

/-- One completion step of the nested dispatcher: the call at input position
(p.1, p.2) completes and writes its result into its own slot. -/
def gatherStep2 (callss : List (List α)) (run : α → β)
    (acc : List (List (Option β))) (p : ℕ × ℕ) : List (List (Option β)) :=
  ((get2 callss p.1 p.2).map fun c =>
    acc.set p.1 ((acc.getD p.1 []).set p.2 (some (run c)))).getD acc

/-- Modelled from the spec: the two-level fan-out of `async_concat_results`
(list-of-lists input): each completing call writes its result into the slot
of its (outer, inner) input position, preserving the nesting structure.
`order` is the completion order of all underlying concurrent calls. -/
def async_concat_results_nested (callss : List (List α)) (run : α → β) (order : List (ℕ × ℕ)) :
    List (List (Option β)) :=
  order.foldl (gatherStep2 callss run) (callss.map fun cs => List.replicate cs.length none)

/-- Every (outer, inner) index pair of a nested call batch. -/
def allPairs (callss : List (List α)) : List (ℕ × ℕ) :=
  (List.range callss.length).flatMap fun i =>
    (List.range (callss.getD i []).length).map fun j => (i, j)

/-- Modelled from the spec: fail-fast collection mode of the dispatcher —
with `return_exceptions` disabled, the first failure cancels the dispatch
and propagates. -/
def gatherFailFast : List (Except ε β) → Except ε (List β)
  | [] => .ok []
  | .error e :: _ => .error e
  | .ok b :: rest => (gatherFailFast rest).map fun l => b :: l

/-! ## Order preprocessor -/

/-- Order type of one intent row; only limit and market orders take part in
notional resolution. -/
inductive OrderType where
  | limit
  | market
deriving DecidableEq

/-- One row of an order-intent table: required symbol/side/type, optional
price, amount, notional; `cost` holds the derived checked cost. -/
structure OrderRow where
  symbol : String
  side : String
  otype : OrderType
  price : Option ℚ := none
  amount : Option ℚ := none
  notional : Option ℚ := none
  cost : Option ℚ := none
deriving DecidableEq

/-- Modelled from the spec: the exchange-client capability object — latest
market price per symbol, and the exchange-defined price/amount precision
functions (delegated, not reimplemented; README v0.10.0). -/
structure ExchangeCaps where
  lastPrice : String → Option ℚ
  priceToPrecision : String → ℚ → ℚ
  amountToPrecision : String → ℚ → ℚ

/-- The reference price for notional resolution: the order's own price for
limit orders, the latest market price from the exchange client for market
orders. -/
def referencePrice (caps : ExchangeCaps) (r : OrderRow) : Option ℚ :=
  match r.otype with
  | .limit => r.price
  | .market => caps.lastPrice r.symbol

/-- Modelled from the spec: volume resolution — when `amount` is missing and
`notional` is present, `amount := notional / reference_price`; rows with
neither are passed through unresolved (README v0.9.32 removed the error on
missing amount). -/
def resolveVolume (caps : ExchangeCaps) (r : OrderRow) : OrderRow :=
  match r.amount with
  | some _ => r
  | none =>
    match r.notional with
    | none => r
    | some ntl =>
      match referencePrice caps r with
      | some p => { r with amount := some (ntl / p) }
      | none => r

/-- Modelled from the spec: precision normalization, delegated to the
exchange-defined precision functions. -/
def roundOrder (caps : ExchangeCaps) (r : OrderRow) : OrderRow :=
  { r with
    price := r.price.map (caps.priceToPrecision r.symbol)
    amount := r.amount.map (caps.amountToPrecision r.symbol) }

/-- Resolved per-symbol market constraints; `none` is the unconstrained
sentinel for a bound the exchange did not report. -/
structure MarketConstraints where
  pricePrecision : Option ℚ := none
  amountPrecision : Option ℚ := none
  minPrice : Option ℚ := none
  maxPrice : Option ℚ := none
  minAmount : Option ℚ := none
  maxAmount : Option ℚ := none
  minCost : Option ℚ := none
  maxCost : Option ℚ := none
deriving DecidableEq

/-- Out-of-range policy: silently clip to the nearest bound, or warn and
leave the value unchanged (README v0.9.15). -/
inductive BoundPolicy where
  | clip
  | warn
deriving DecidableEq

/-- One non-fatal out-of-range warning record, naming the symbol and the
offending field. -/
structure OrderWarning where
  symbol : String
  offendingField : String
deriving DecidableEq

/-- Check a value against an upper bound; `none` means unconstrained and is
never checked. -/
def checkMax (policy : BoundPolicy) (symbol fld : String) (mx : Option ℚ) (v : ℚ) :
    ℚ × List OrderWarning :=
  match mx with
  | some m =>
    if m < v then
      match policy with
      | .clip => (m, [])
      | .warn => (v, [⟨symbol, fld⟩])
    else (v, [])
  | none => (v, [])

/-- Modelled from the spec: limit enforcement of one value against resolved
min/max bounds; only bounds that are not the unconstrained sentinel are
checked (README v0.9.14). -/
def checkBound (policy : BoundPolicy) (symbol fld : String) (mn mx : Option ℚ) (v : ℚ) :
    ℚ × List OrderWarning :=
  match mn with
  | some m =>
    if v < m then
      match policy with
      | .clip => (m, [])
      | .warn => (v, [⟨symbol, fld⟩])
    else checkMax policy symbol fld mx v
  | none => checkMax policy symbol fld mx v

/-- The price-limit check of one row: present prices are checked against the
resolved price bounds. -/
def priceCheck (mc : MarketConstraints) (pPol : BoundPolicy) (r : OrderRow) :
    Option ℚ × List OrderWarning :=
  match r.price with
  | some p =>
    ((some (checkBound pPol r.symbol "price" mc.minPrice mc.maxPrice p).1),
      (checkBound pPol r.symbol "price" mc.minPrice mc.maxPrice p).2)
  | none => (none, [])

/-- The amount-limit check of one row. -/
def amountCheck (mc : MarketConstraints) (vPol : BoundPolicy) (r : OrderRow) :
    Option ℚ × List OrderWarning :=
  match r.amount with
  | some a =>
    ((some (checkBound vPol r.symbol "amount" mc.minAmount mc.maxAmount a).1),
      (checkBound vPol r.symbol "amount" mc.minAmount mc.maxAmount a).2)
  | none => (none, [])

/-- The derived-cost check of one row: cost is price times amount, checked
when both are present. -/
def costCheck (mc : MarketConstraints) (vPol : BoundPolicy) (r : OrderRow) :
    Option ℚ × List OrderWarning :=
  match r.price, r.amount with
  | some p, some a =>
    ((some (checkBound vPol r.symbol "cost" mc.minCost mc.maxCost (p * a)).1),
      (checkBound vPol r.symbol "cost" mc.minCost mc.maxCost (p * a)).2)
  | _, _ => (none, [])

/-- Modelled from the spec: limit enforcement of one rounded order row —
rounded price, amount, and derived cost (price times amount) are compared
against the resolved bounds under the caller's policies, accumulating the
non-fatal warning records. -/
def enforceLimits (mc : MarketConstraints) (pPol vPol : BoundPolicy) (r : OrderRow) :
    OrderRow × List OrderWarning :=
  ({ r with
      price := (priceCheck mc pPol r).1
      amount := (amountCheck mc vPol r).1
      cost := (costCheck mc vPol r).1 },
    (priceCheck mc pPol r).2 ++ (amountCheck mc vPol r).2 ++ (costCheck mc vPol r).2)

/-- Raw per-symbol precision metadata as reported by the exchange; fields may
be absent. -/
structure PrecisionMeta where
  price : Option ℚ := none
  amount : Option ℚ := none
deriving DecidableEq

/-- A raw min/max range; either end may be absent. -/
structure LimitRange where
  min : Option ℚ := none
  max : Option ℚ := none
deriving DecidableEq

/-- Raw per-symbol limits metadata; sub-fields may be absent. -/
structure LimitsMeta where
  price : Option LimitRange := none
  amount : Option LimitRange := none
  cost : Option LimitRange := none
deriving DecidableEq

/-- Raw per-symbol market metadata from `load_markets`; precision and limits
may be partially reported. -/
structure MarketMeta where
  precision : Option PrecisionMeta := none
  limits : Option LimitsMeta := none
deriving DecidableEq

def lookupMarket (symbol : String) : List (String × MarketMeta) → Option MarketMeta
  | [] => none
  | (s, m) :: rest => if s = symbol then some m else lookupMarket symbol rest

/-- Modelled from the spec: `constraints_for(symbol, markets)` — look the
symbol up in the market metadata; absent precision or limit sub-fields are
substituted with the unconstrained sentinel for that specific bound rather
than failing the whole lookup (the `reindex` fix of README v0.9.32); an
unknown symbol is reported as a not-found condition. -/
def constraints_for (symbol : String) (markets : List (String × MarketMeta)) :
    Except String MarketConstraints :=
  match lookupMarket symbol markets with
  | none => .error symbol
  | some meta =>
    .ok
      { pricePrecision := meta.precision.bind fun p => p.price
        amountPrecision := meta.precision.bind fun p => p.amount
        minPrice := (meta.limits.bind fun l => l.price).bind fun rg => rg.min
        maxPrice := (meta.limits.bind fun l => l.price).bind fun rg => rg.max
        minAmount := (meta.limits.bind fun l => l.amount).bind fun rg => rg.min
        maxAmount := (meta.limits.bind fun l => l.amount).bind fun rg => rg.max
        minCost := (meta.limits.bind fun l => l.cost).bind fun rg => rg.min
        maxCost := (meta.limits.bind fun l => l.cost).bind fun rg => rg.max }

/-- The fully unconstrained fallback used when a symbol is absent from the
market metadata and the caller proceeds unconstrained. -/
def defaultConstraints : MarketConstraints := {}

/-- The per-row preprocessing pipeline: volume resolution, precision
normalization, then limit enforcement. -/
def preprocessOrderRow (caps : ExchangeCaps) (mc : MarketConstraints)
    (pPol vPol : BoundPolicy) (r : OrderRow) : OrderRow × List OrderWarning :=
  enforceLimits mc pPol vPol (roundOrder caps (resolveVolume caps r))

/-- One row of `orders_dataframe_preprocessing`: resolve the symbol's
constraints (proceeding unconstrained when unknown) and run the row
pipeline. -/
def preprocessRowTop (caps : ExchangeCaps) (markets : List (String × MarketMeta))
    (price_out_of_range volume_out_of_range : BoundPolicy) (r : OrderRow) :
    OrderRow × List OrderWarning :=
  match constraints_for r.symbol markets with
  | .ok mc => preprocessOrderRow caps mc price_out_of_range volume_out_of_range r
  | .error _ =>
    preprocessOrderRow caps defaultConstraints price_out_of_range volume_out_of_range r

/-- Modelled from the spec: `orders_dataframe_preprocessing` — transform a
table of order intents row by row into exchange-ready rows plus per-row
warnings, preserving row order. -/
def orders_dataframe_preprocessing (caps : ExchangeCaps)
    (markets : List (String × MarketMeta))
    (price_out_of_range volume_out_of_range : BoundPolicy)
    (orders : List OrderRow) : List (OrderRow × List OrderWarning) :=
  orders.map (preprocessRowTop caps markets price_out_of_range volume_out_of_range)

/-! ## Resolution of the `since` argument -/

/-- A wall-clock instant split into calendar components (days since the
epoch, hour, minute, second). -/
structure DateTimeParts where
  day : ℤ
  hour : ℤ
  minute : ℤ
  second : ℤ
deriving DecidableEq

def dtToSeconds (t : DateTimeParts) : ℤ :=
  t.day * 86400 + t.hour * 3600 + t.minute * 60 + t.second

/-- Modelled from the spec: pandas DateOffset parameters accepted for
`since` (README v0.7.2) — plural keys (`days`, `seconds`) are relative
shifts, singular keys (`hour`, `minute`) replace the component. -/
structure DateOffsetParams where
  days : Option ℤ := none
  seconds : Option ℤ := none
  hour : Option ℤ := none
  minute : Option ℤ := none
deriving DecidableEq

def applyDateOffset (d : DateOffsetParams) (t : DateTimeParts) : DateTimeParts :=
  { day := t.day + d.days.getD 0
    hour := d.hour.getD t.hour
    minute := d.minute.getD t.minute
    second := t.second + d.seconds.getD 0 }

/-- The accepted shapes of a non-null `since` argument: an absolute epoch
timestamp, a pandas Timedelta string, or a dict of DateOffset parameters. -/
inductive SinceArg where
  | timestampMs (t : ℤ)
  | timedeltaStr (s : String)
  | offsetParams (d : DateOffsetParams)

/-- Modelled from the spec: parse a pandas Timedelta string such as `7d`
(README v0.7.4) into a span in seconds. -/
def parseTimedelta (s : String) : Option ℤ :=
  match s.data.getLast? with
  | some u =>
    match parseDigits s.data.dropLast with
    | some n =>
      if u = 'd' then some ((n : ℤ) * 86400)
      else if u = 'h' then some ((n : ℤ) * 3600)
      else if u = 'm' then some ((n : ℤ) * 60)
      else if u = 's' then some (n : ℤ)
      else none
    | none => none
  | none => none

/-- Modelled from the spec: convert the caller's `since` to an absolute epoch
timestamp (milliseconds) before the exchange call; a Timedelta string means
that span before now, DateOffset parameters are applied to now, and None is
kept as None (README v0.7.5). -/
def resolve_since (now : DateTimeParts) : Option SinceArg → Option ℤ
  | none => none
  | some (.timestampMs t) => some t
  | some (.timedeltaStr s) =>
    (parseTimedelta s).map fun secs => (dtToSeconds now - secs) * 1000
  | some (.offsetParams d) => some (dtToSeconds (applyDateOffset d now) * 1000)

def c1caps : ExchangeCaps := ⟨fun _ => some 655, fun _ q => q, fun _ q => q⟩

def c2caps : ExchangeCaps := ⟨fun _ => none, fun _ q => q, fun _ q => q⟩

def c3calls : List ℕ := [0, 1, 2, 3, 4]

def c3run : ℕ → Except String ℕ := fun n => if n = 2 then .error "boom" else .ok (n * 10)

/-! ## Theorems -/

theorem toNat_ofNat_valid (n : ℕ) (h : n < 55296) : (Char.ofNat n).toNat = n := by
  unfold Char.ofNat
  split
  · simp [Char.ofNatAux, Char.toNat, UInt32.toNat]
  · exact absurd (Or.inl h) (by assumption)

theorem snakeChar_notUpper (c : Char) : ∀ d ∈ snakeChar c, isUpperAscii d = false := by
  intro d hd
  unfold snakeChar at hd
  split at hd
  case isTrue h =>
    have hc : 65 ≤ c.toNat ∧ c.toNat ≤ 90 := by
      simpa [isUpperAscii] using h
    rcases List.mem_cons.mp hd with h1 | h1
    · subst h1; decide
    · rcases List.mem_cons.mp h1 with h2 | h2
      · subst h2
        have hv : (Char.ofNat (c.toNat + 32)).toNat = c.toNat + 32 :=
          toNat_ofNat_valid _ (by omega)
        simp [isUpperAscii, hv]
        omega
      · cases h2
  case isFalse h =>
    simp only [List.mem_singleton] at hd; subst hd; simpa using h

theorem snakeChar_of_notUpper {c : Char} (h : isUpperAscii c = false) : snakeChar c = [c] := by
  simp [snakeChar, h]

theorem flatMap_snakeChar_id (l : List Char) (h : ∀ d ∈ l, isUpperAscii d = false) :
    l.flatMap snakeChar = l := by
  induction l with
  | nil => rfl
  | cons c cs ih =>
    rw [List.flatMap_cons, snakeChar_of_notUpper (h c (List.mem_cons_self c cs))]
    rw [List.singleton_append]
    rw [ih fun d hd => h d (List.mem_cons_of_mem c hd)]

theorem toSnake_data_notUpper (s : String) : ∀ d ∈ (toSnake s).data, isUpperAscii d = false := by
  intro d hd
  unfold toSnake at hd
  simp only [List.mem_flatMap] at hd
  obtain ⟨c, _, hdc⟩ := hd
  exact snakeChar_notUpper c d hdc

theorem toSnake_of_notUpper {s : String} (h : ∀ d ∈ s.data, isUpperAscii d = false) :
    toSnake s = s := by
  unfold toSnake
  cases s with
  | mk data => exact congrArg String.mk (flatMap_snakeChar_id data h)

theorem toSnake_idem (s : String) : toSnake (toSnake s) = toSnake s :=
  toSnake_of_notUpper (toSnake_data_notUpper s)

theorem toSnake_append (a b : String) : toSnake (a ++ b) = toSnake a ++ toSnake b := by
  unfold toSnake
  cases a with
  | mk da =>
    cases b with
    | mk db =>
      show (⟨(da ++ db).flatMap snakeChar⟩ : String)
          = ⟨da.flatMap snakeChar ++ db.flatMap snakeChar⟩
      rw [List.flatMap_append]

theorem coerceNum_idem (v : Value) : coerceNum (coerceNum v) = coerceNum v := by
  cases v <;> simp [coerceNum]
  case str s => cases parseDecimal s <;> simp [coerceNum]

theorem coerceBool_idem (v : Value) : coerceBool (coerceBool v) = coerceBool v := by
  cases v <;> simp [coerceBool]
  case str s =>
    by_cases h1 : s = "true" ∨ s = "True" <;>
      by_cases h2 : s = "false" ∨ s = "False" <;>
        simp [h1, h2, coerceBool]

theorem coerceDatetime_idem (v : Value) :
    coerceDatetime (coerceDatetime v) = coerceDatetime v := by
  cases v <;> simp [coerceDatetime]
  case str s => cases parseDecimal s <;> simp [coerceDatetime]

theorem coerceNum_not_dict (v : Value) : (coerceNum v).isDict = false := by
  cases v <;> simp [coerceNum, Value.isDict]
  case str s => cases parseDecimal s <;> simp [Value.isDict]

theorem coerceBool_not_dict (v : Value) : (coerceBool v).isDict = false := by
  cases v <;> simp [coerceBool, Value.isDict]
  case str s =>
    by_cases h1 : s = "true" ∨ s = "True" <;>
      by_cases h2 : s = "false" ∨ s = "False" <;>
        simp [h1, h2, Value.isDict]

theorem coerceDatetime_not_dict (v : Value) : (coerceDatetime v).isDict = false := by
  cases v <;> simp [coerceDatetime, Value.isDict]
  case str s => cases parseDecimal s <;> simp [Value.isDict]

theorem coerceFor_idem (k : Kind) (key : String) (v : Value) :
    coerceFor k key (coerceFor k key v) = coerceFor k key v := by
  unfold coerceFor
  by_cases h1 : key ∈ numericFields k
  · simp [h1, coerceNum_idem]
  · by_cases h2 : key ∈ boolFields k
    · simp [h1, h2, coerceBool_idem]
    · by_cases h3 : key ∈ datetimeFields k <;> simp [h1, h2, h3, coerceDatetime_idem]

theorem coerceFor_dict_eq (k : Kind) (key : String) (v : Value)
    (h : (coerceFor k key v).isDict = true) : coerceFor k key v = v := by
  unfold coerceFor at h ⊢
  by_cases h1 : key ∈ numericFields k
  · rw [if_pos h1] at h; rw [coerceNum_not_dict] at h; cases h
  · by_cases h2 : key ∈ boolFields k
    · rw [if_neg h1, if_pos h2] at h; rw [coerceBool_not_dict] at h; cases h
    · by_cases h3 : key ∈ datetimeFields k
      · rw [if_neg h1, if_neg h2, if_pos h3] at h
        rw [coerceDatetime_not_dict] at h; cases h
      · simp [h1, h2, h3]

/-! ## Normalizer idempotence infrastructure -/

theorem append_underscore_ne (p x : String) : p ++ "_" ++ x ≠ p := by
  intro h
  have hlen := congrArg String.length h
  rw [String.length_append, String.length_append] at hlen
  have h1 : ("_").length = 1 := rfl
  omega

theorem flattenKey_not_nested (k : Kind) (p : String) (hp : p ∈ nestedFields k) (x : String) :
    p ++ "_" ++ x ∉ nestedFields k := by
  intro hmem
  cases k <;> simp [nestedFields] at hp hmem <;>
    (subst hp; exact append_underscore_ne _ _ hmem)

theorem toSnake_underscore : toSnake "_" = "_" := by decide

theorem snakeConcat_fixed (a b : String) :
    toSnake (toSnake a ++ "_" ++ toSnake b) = toSnake a ++ "_" ++ toSnake b := by
  rw [toSnake_append, toSnake_append, toSnake_idem, toSnake_idem, toSnake_underscore]

theorem coerceFor_preserves_not_dict (k : Kind) (key : String) (v : Value)
    (h : v.isDict = false) : (coerceFor k key v).isDict = false := by
  unfold coerceFor
  by_cases h1 : key ∈ numericFields k
  · simp [h1, coerceNum_not_dict]
  · by_cases h2 : key ∈ boolFields k
    · simp [h1, h2, coerceBool_not_dict]
    · by_cases h3 : key ∈ datetimeFields k <;> simp [h1, h2, h3, coerceDatetime_not_dict, h]

theorem normalizeEntry_fixed (k : Kind) (key : String) (w : Value)
    (hkey : toSnake key = key) (hco : coerceFor k key w = w)
    (hnest : w.isDict = true → key ∉ nestedFields k) :
    normalizeEntry k (key, w) = [(key, w)] ∧ entrySources k (key, w) = [(key, key)] := by
  cases w with
  | dict m =>
    have hmem : key ∉ nestedFields k := hnest rfl
    constructor
    · show (if toSnake key ∈ nestedFields k then
          List.map (fun ce => (toSnake key ++ "_" ++ toSnake ce.1,
            coerceFor k (toSnake key ++ "_" ++ toSnake ce.1) ce.2)) m
        else [(toSnake key, coerceFor k (toSnake key) (.dict m))]) = [(key, Value.dict m)]
      rw [hkey, if_neg hmem, hco]
    · show (if toSnake key ∈ nestedFields k then
          List.map (fun ce => (key ++ "." ++ ce.1, toSnake key ++ "_" ++ toSnake ce.1)) m
        else [(key, toSnake key)]) = [(key, key)]
      rw [hkey, if_neg hmem]
  | num q =>
    refine ⟨?_, ?_⟩
    · show [(toSnake key, coerceFor k (toSnake key) (.num q))] = [(key, Value.num q)]
      rw [hkey, hco]
    · show [(key, toSnake key)] = [(key, key)]
      rw [hkey]
  | str s =>
    refine ⟨?_, ?_⟩
    · show [(toSnake key, coerceFor k (toSnake key) (.str s))] = [(key, Value.str s)]
      rw [hkey, hco]
    · show [(key, toSnake key)] = [(key, key)]
      rw [hkey]
  | boolV b =>
    refine ⟨?_, ?_⟩
    · show [(toSnake key, coerceFor k (toSnake key) (.boolV b))] = [(key, Value.boolV b)]
      rw [hkey, hco]
    · show [(key, toSnake key)] = [(key, key)]
      rw [hkey]
  | timeV t =>
    refine ⟨?_, ?_⟩
    · show [(toSnake key, coerceFor k (toSnake key) (.timeV t))] = [(key, Value.timeV t)]
      rw [hkey, hco]
    · show [(key, toSnake key)] = [(key, key)]
      rw [hkey]
  | null =>
    refine ⟨?_, ?_⟩
    · show [(toSnake key, coerceFor k (toSnake key) (.null))] = [(key, Value.null)]
      rw [hkey, hco]
    · show [(key, toSnake key)] = [(key, key)]
      rw [hkey]

theorem normalizeEntry_post (k : Kind) (e : String × Value) :
    ∀ e' ∈ normalizeEntry k e,
      normalizeEntry k e' = [e'] ∧ entrySources k e' = [(e'.1, e'.1)] := by
  intro e' he'
  unfold normalizeEntry at he'
  obtain ⟨key, v⟩ := e
  match hv : v with
  | .dict m =>
    simp only at he'
    by_cases hn : toSnake key ∈ nestedFields k
    · rw [if_pos hn] at he'
      simp only [List.mem_map] at he'
      obtain ⟨ce, _, hce⟩ := he'
      subst hce
      refine normalizeEntry_fixed k _ _ (snakeConcat_fixed key ce.1) (coerceFor_idem k _ _) ?_
      intro _
      exact flattenKey_not_nested k _ hn _
    · rw [if_neg hn] at he'
      simp only [List.mem_singleton] at he'
      subst he'
      refine normalizeEntry_fixed k _ _ (toSnake_idem key) (coerceFor_idem k _ _) ?_
      intro _
      exact hn
  | .num q =>
    simp only [List.mem_singleton] at he'
    subst he'
    refine normalizeEntry_fixed k _ _ (toSnake_idem key) (coerceFor_idem k _ _) ?_
    intro hd
    rw [coerceFor_preserves_not_dict k _ _ (by simp [Value.isDict])] at hd
    cases hd
  | .str s =>
    simp only [List.mem_singleton] at he'
    subst he'
    refine normalizeEntry_fixed k _ _ (toSnake_idem key) (coerceFor_idem k _ _) ?_
    intro hd
    rw [coerceFor_preserves_not_dict k _ _ (by simp [Value.isDict])] at hd
    cases hd
  | .boolV b =>
    simp only [List.mem_singleton] at he'
    subst he'
    refine normalizeEntry_fixed k _ _ (toSnake_idem key) (coerceFor_idem k _ _) ?_
    intro hd
    rw [coerceFor_preserves_not_dict k _ _ (by simp [Value.isDict])] at hd
    cases hd
  | .timeV t =>
    simp only [List.mem_singleton] at he'
    subst he'
    refine normalizeEntry_fixed k _ _ (toSnake_idem key) (coerceFor_idem k _ _) ?_
    intro hd
    rw [coerceFor_preserves_not_dict k _ _ (by simp [Value.isDict])] at hd
    cases hd
  | .null =>
    simp only [List.mem_singleton] at he'
    subst he'
    refine normalizeEntry_fixed k _ _ (toSnake_idem key) (coerceFor_idem k _ _) ?_
    intro hd
    rw [coerceFor_preserves_not_dict k _ _ (by simp [Value.isDict])] at hd
    cases hd

theorem flatMap_self {f : α → List α} {l : List α} (h : ∀ x ∈ l, f x = [x]) :
    l.flatMap f = l := by
  induction l with
  | nil => rfl
  | cons a as ih =>
    rw [List.flatMap_cons, h a (List.mem_cons_self a as), List.singleton_append,
      ih fun x hx => h x (List.mem_cons_of_mem a hx)]

theorem normalizeRecord_post (k : Kind) (r : Record) :
    ∀ e' ∈ normalizeRecord k r,
      normalizeEntry k e' = [e'] ∧ entrySources k e' = [(e'.1, e'.1)] := by
  intro e' he'
  unfold normalizeRecord at he'
  simp only [List.mem_flatMap] at he'
  obtain ⟨e, _, hee⟩ := he'
  exact normalizeEntry_post k e e' hee

theorem normalizeRecord_fixed (k : Kind) (l : Record)
    (h : ∀ e ∈ l, normalizeEntry k e = [e]) : normalizeRecord k l = l :=
  flatMap_self h

theorem sourceTargets_fixed (k : Kind) (l : Record)
    (h : ∀ e ∈ l, entrySources k e = [(e.1, e.1)]) :
    sourceTargets k l = l.map fun e => (e.1, e.1) := by
  induction l with
  | nil => rfl
  | cons e es ih =>
    show entrySources k e ++ sourceTargets k es = _
    rw [h e (List.mem_cons_self e es), ih fun x hx => h x (List.mem_cons_of_mem e hx)]
    rw [List.map_cons]
    rfl

theorem findCollision_eq_none_of_nodup (l : List (String × String))
    (h : (l.map Prod.snd).Nodup) : findCollision l = none := by
  induction l with
  | nil => rfl
  | cons p rest ih =>
    obtain ⟨s, t⟩ := p
    rw [List.map_cons, List.nodup_cons] at h
    unfold findCollision
    have hfind : rest.find? (fun e => e.2 == t) = none := by
      rw [List.find?_eq_none]
      intro e he
      simp only [beq_iff_eq]
      intro heq
      refine h.1 ?_
      rw [← heq]
      exact List.mem_map.mpr ⟨e, he, rfl⟩
    rw [hfind]
    exact ih h.2

theorem findCollision_none_nodup (l : List (String × String))
    (h : findCollision l = none) : (l.map Prod.snd).Nodup := by
  induction l with
  | nil => simp
  | cons p rest ih =>
    obtain ⟨s, t⟩ := p
    unfold findCollision at h
    rw [List.map_cons, List.nodup_cons]
    cases hfind : rest.find? (fun e => e.2 == t) with
    | some e2 => rw [hfind] at h; cases h
    | none =>
      rw [hfind] at h
      constructor
      · intro hmem
        rw [List.mem_map] at hmem
        obtain ⟨e, he, het⟩ := hmem
        have := List.find?_eq_none.mp hfind e he
        simp only [beq_iff_eq] at this
        exact this het
      · exact ih h

theorem findCollision_some_sublist (l : List (String × String)) (s1 s2 : String)
    (h : findCollision l = some (s1, s2)) :
    ∃ t, [(s1, t), (s2, t)].Sublist l := by
  induction l with
  | nil => cases h
  | cons p rest ih =>
    obtain ⟨s, t⟩ := p
    unfold findCollision at h
    cases hfind : rest.find? (fun e => e.2 == t) with
    | some e2 =>
      rw [hfind] at h
      have hinj := Option.some.inj h
      have hs1 : s = s1 := congrArg Prod.fst hinj
      have hs2 : e2.1 = s2 := congrArg Prod.snd hinj
      have hmem : e2 ∈ rest := List.mem_of_find?_eq_some hfind
      have heq : e2.2 = t := by simpa using List.find?_some hfind
      refine ⟨t, ?_⟩
      have hsub : [(s2, t)].Sublist rest := by
        rw [List.singleton_sublist]
        have he2 : (s2, t) = e2 := by
          obtain ⟨a, b⟩ := e2
          simp only at hs2 heq
          rw [hs2, heq]
        rw [he2]
        exact hmem
      rw [← hs1]
      exact List.Sublist.cons₂ (s, t) hsub
    | none =>
      rw [hfind] at h
      obtain ⟨t2, ht2⟩ := ih h
      exact ⟨t2, List.Sublist.cons (s, t) ht2⟩

theorem map_fst_normalizeEntry (k : Kind) (e : String × Value) :
    (normalizeEntry k e).map Prod.fst = (entrySources k e).map Prod.snd := by
  obtain ⟨key, v⟩ := e
  cases v <;> simp only [normalizeEntry, entrySources]
  case dict m =>
    by_cases hn : toSnake key ∈ nestedFields k
    · rw [if_pos hn, if_pos hn, List.map_map, List.map_map]
      rfl
    · rw [if_neg hn, if_neg hn]
      rfl
  all_goals rfl

theorem map_fst_normalizeRecord (k : Kind) (r : Record) :
    (normalizeRecord k r).map Prod.fst = (sourceTargets k r).map Prod.snd := by
  induction r with
  | nil => rfl
  | cons e es ih =>
    show (normalizeEntry k e ++ normalizeRecord k es).map Prod.fst
        = (entrySources k e ++ sourceTargets k es).map Prod.snd
    rw [List.map_append, List.map_append, map_fst_normalizeEntry, ih]

/-! ## Fallible traversal and column-pruning lemmas -/

theorem mapExcept_ok_mem {f : α → Except ε β} {rs : List α} {out : List β}
    (h : mapExcept f rs = .ok out) : ∀ b ∈ out, ∃ a ∈ rs, f a = .ok b := by
  induction rs generalizing out with
  | nil =>
    unfold mapExcept at h
    obtain rfl := Except.ok.inj h
    intro b hb
    cases hb
  | cons a as ih =>
    unfold mapExcept at h
    cases hfa : f a with
    | error e => rw [hfa] at h; cases h
    | ok b0 =>
      rw [hfa] at h
      cases hrest : mapExcept f as with
      | error e => rw [hrest] at h; cases h
      | ok bs =>
        rw [hrest] at h
        obtain rfl := Except.ok.inj h
        intro b hb
        rcases List.mem_cons.mp hb with rfl | hb
        · exact ⟨a, List.mem_cons_self a as, hfa⟩
        · obtain ⟨a2, ha2, hfa2⟩ := ih hrest b hb
          exact ⟨a2, List.mem_cons_of_mem a ha2, hfa2⟩

theorem mapExcept_ok_of_all {f : α → Except ε α} {rs : List α}
    (h : ∀ a ∈ rs, f a = .ok a) : mapExcept f rs = .ok rs := by
  induction rs with
  | nil => rfl
  | cons a as ih =>
    unfold mapExcept
    rw [h a (List.mem_cons_self a as), ih fun x hx => h x (List.mem_cons_of_mem a hx)]
    rfl

theorem mapExcept_error_of_mem {f : α → Except ε β} {rs : List α} {a : α} {e : ε}
    (ha : a ∈ rs) (hfa : f a = .error e) : ∃ e2, mapExcept f rs = .error e2 := by
  induction rs with
  | nil => cases ha
  | cons a0 as ih =>
    unfold mapExcept
    rcases List.mem_cons.mp ha with rfl | ha2
    · rw [hfa]; exact ⟨e, rfl⟩
    · cases hfa0 : f a0 with
      | error e0 => exact ⟨e0, rfl⟩
      | ok b0 =>
        obtain ⟨e2, he2⟩ := ih ha2
        rw [he2]
        exact ⟨e2, rfl⟩

theorem lookupVal_cons (c : String) (e : String × Value) (r : Record) :
    lookupVal c (e :: r) = if e.1 = c then some e.2 else lookupVal c r := rfl

theorem lookupVal_filter_pos (p : String → Bool) (c : String) (hp : p c = true) (r : Record) :
    lookupVal c (r.filter fun e => p e.1) = lookupVal c r := by
  induction r with
  | nil => rfl
  | cons e es ih =>
    rw [List.filter_cons]
    by_cases hpe : p e.1 = true
    · simp only [hpe, if_true]
      rw [lookupVal_cons, lookupVal_cons]
      by_cases hc : e.1 = c
      · rw [if_pos hc, if_pos hc]
      · rw [if_neg hc, if_neg hc, ih]
    · have hpe2 : p e.1 = false := by simpa using hpe
      simp only [hpe2, Bool.false_eq_true, if_false]
      rw [ih, lookupVal_cons]
      have hc : e.1 ≠ c := by
        intro h
        rw [h, hp] at hpe2
        cases hpe2
      rw [if_neg hc]

theorem lookupVal_filter_neg (p : String → Bool) (c : String) (hp : p c = false) (r : Record) :
    lookupVal c (r.filter fun e => p e.1) = none := by
  induction r with
  | nil => rfl
  | cons e es ih =>
    rw [List.filter_cons]
    by_cases hpe : p e.1 = true
    · simp only [hpe, if_true]
      rw [lookupVal_cons]
      have hc : e.1 ≠ c := by
        intro h
        rw [h, hp] at hpe
        cases hpe
      rw [if_neg hc]
      exact ih
    · have hpe2 : p e.1 = false := by simpa using hpe
      simp only [hpe2, Bool.false_eq_true, if_false]
      exact ih

theorem allMissing_false_of_dropna (rows : List Record) (c : String)
    (hc : allMissing rows c = false) : allMissing (dropna_fields rows) c = false := by
  have hc0 := hc
  unfold allMissing at hc
  rw [List.all_eq_false] at hc
  obtain ⟨r, hr, hmiss⟩ := hc
  unfold allMissing
  rw [List.all_eq_false]
  refine ⟨r.filter fun e => !allMissing rows e.1, List.mem_map_of_mem _ hr, ?_⟩
  have heq : lookupVal c (r.filter fun e => !allMissing rows e.1) = lookupVal c r :=
    lookupVal_filter_pos (fun x => !allMissing rows x) c (by simp only []; rw [hc0]; rfl) r
  rw [heq]
  exact hmiss

theorem dropna_fields_idem (rows : List Record) :
    dropna_fields (dropna_fields rows) = dropna_fields rows := by
  have hkeep : ∀ r2 ∈ dropna_fields rows,
      (r2.filter fun e => !allMissing (dropna_fields rows) e.1) = r2 := by
    intro r2 hr2
    rw [List.filter_eq_self]
    intro e he
    unfold dropna_fields at hr2
    rw [List.mem_map] at hr2
    obtain ⟨r, hr, hfilter⟩ := hr2
    rw [← hfilter] at he
    have hmem := List.mem_filter.mp he
    have hfalse : allMissing rows e.1 = false := by
      have h2 := hmem.2
      simpa using h2
    have h3 := allMissing_false_of_dropna rows e.1 hfalse
    rw [h3]
    rfl
  show (dropna_fields rows).map
      (fun r => r.filter fun e => !allMissing (dropna_fields rows) e.1) = dropna_fields rows
  rw [List.map_congr_left hkeep]
  exact List.map_id' (dropna_fields rows)

theorem normalizeRecordChecked_ok (k : Kind) (r0 r : Record)
    (h : normalizeRecordChecked k r0 = .ok r) :
    r = normalizeRecord k r0 ∧ findCollision (sourceTargets k r0) = none := by
  unfold normalizeRecordChecked at h
  cases hf : findCollision (sourceTargets k r0) with
  | some p => obtain ⟨a, b⟩ := p; rw [hf] at h; cases h
  | none => rw [hf] at h; exact ⟨(Except.ok.inj h).symm, rfl⟩

theorem normalizeRecordChecked_fixed (k : Kind) (l : Record)
    (hpost : ∀ e ∈ l, normalizeEntry k e = [e] ∧ entrySources k e = [(e.1, e.1)])
    (hnodup : (l.map Prod.fst).Nodup) :
    normalizeRecordChecked k l = .ok l := by
  unfold normalizeRecordChecked
  have hst : sourceTargets k l = l.map fun e => (e.1, e.1) :=
    sourceTargets_fixed k l fun e he => (hpost e he).2
  have hsnd : (sourceTargets k l).map Prod.snd = l.map Prod.fst := by
    rw [hst, List.map_map]
    rfl
  have hnone : findCollision (sourceTargets k l) = none :=
    findCollision_eq_none_of_nodup _ (by rw [hsnd]; exact hnodup)
  rw [hnone, normalizeRecord_fixed k l fun e he => (hpost e he).1]

/-- C5: for every registered response kind (and either pruning mode), normalize
applied to an empty record sequence returns the empty table — zero rows and,
by `tableColumns`, zero columns — and never raises. -/
theorem normalize_empty_safe (k : Kind) (de : Bool) :
    CryptoPandas.normalize k de [] = .ok [] ∧ tableColumns ([] : List Record) = [] := by
  constructor
  · cases de <;> rfl
  · rfl

/-- C6: a column whose cells are entirely missing after type coercion is
absent from every row of the normalized table when `drop_empty` is true, and
left in place (with every present cell null) when `drop_empty` is false; the
all-missing test is evaluated on the coerced rows, not on raw strings. -/
theorem dropna_prunes_all_missing (k : Kind) (rs : List Record) (c : String)
    (rows : List Record) (hm : mapExcept (normalizeRecordChecked k) rs = .ok rows)
    (hmiss : allMissing rows c = true) :
    (CryptoPandas.normalize k true rs = .ok (dropna_fields rows) ∧
      ∀ r ∈ dropna_fields rows, lookupVal c r = none) ∧
    (CryptoPandas.normalize k false rs = .ok rows ∧
      ∀ r ∈ rows, lookupVal c r = none ∨ lookupVal c r = some .null) := by
  refine ⟨⟨?_, ?_⟩, ?_, ?_⟩
  · unfold CryptoPandas.normalize
    rw [hm]
    rfl
  · intro r hr
    unfold dropna_fields at hr
    rw [List.mem_map] at hr
    obtain ⟨r0, hr0, hf⟩ := hr
    rw [← hf]
    exact lookupVal_filter_neg (fun x => !allMissing rows x) c
      (by simp only []; rw [hmiss]; rfl) r0
  · unfold CryptoPandas.normalize
    rw [hm]
    rfl
  · intro r hr
    have hall : isMissing (lookupVal c r) = true := by
      unfold allMissing at hmiss
      rw [List.all_eq_true] at hmiss
      exact hmiss r hr
    cases hl : lookupVal c r with
    | none => exact Or.inl rfl
    | some v =>
      rw [hl] at hall
      cases v with
      | null => exact Or.inr rfl
      | num q => cases hall
      | str s => cases hall
      | boolV b => cases hall
      | timeV t => cases hall
      | dict m => cases hall

/-- C7: normalize is idempotent — re-running it with the same kind (and the
same pruning mode) on a table it already produced is a no-op, leaving both
the column set and every cell value unchanged. -/
theorem normalize_idempotent (k : Kind) (de : Bool) (rs out : List Record)
    (h : CryptoPandas.normalize k de rs = .ok out) :
    CryptoPandas.normalize k de out = .ok out := by
  unfold CryptoPandas.normalize at h ⊢
  cases hm : mapExcept (normalizeRecordChecked k) rs with
  | error e => rw [hm] at h; cases h
  | ok rows =>
    rw [hm] at h
    have hout : out = if de then dropna_fields rows else rows := (Except.ok.inj h).symm
    have hsub : ∀ r2 ∈ out, ∃ r ∈ rows, ∀ e ∈ r2, e ∈ r := by
      intro r2 hr2
      cases de with
      | true =>
        rw [if_pos rfl] at hout
        rw [hout] at hr2
        unfold dropna_fields at hr2
        rw [List.mem_map] at hr2
        obtain ⟨r, hr, hf⟩ := hr2
        exact ⟨r, hr, fun e he => List.mem_of_mem_filter (hf ▸ he)⟩
      | false =>
        rw [if_neg (by simp)] at hout
        exact ⟨r2, hout ▸ hr2, fun e he => he⟩
    have hsubl : ∀ r2 ∈ out, ∃ r ∈ rows, (r2.map Prod.fst).Sublist (r.map Prod.fst) := by
      intro r2 hr2
      cases de with
      | true =>
        rw [if_pos rfl] at hout
        rw [hout] at hr2
        unfold dropna_fields at hr2
        rw [List.mem_map] at hr2
        obtain ⟨r, hr, hf⟩ := hr2
        exact ⟨r, hr, hf ▸ (List.filter_sublist r).map Prod.fst⟩
      | false =>
        rw [if_neg (by simp)] at hout
        exact ⟨r2, hout ▸ hr2, List.Sublist.refl _⟩
    have hstep : ∀ r2 ∈ out, normalizeRecordChecked k r2 = .ok r2 := by
      intro r2 hr2
      obtain ⟨r, hr, hmem⟩ := hsub r2 hr2
      obtain ⟨r0, hr0, hchk⟩ := mapExcept_ok_mem hm r hr
      obtain ⟨hrn, hcol⟩ := normalizeRecordChecked_ok k r0 r hchk
      have hpost : ∀ e ∈ r2, normalizeEntry k e = [e] ∧ entrySources k e = [(e.1, e.1)] := by
        intro e he
        exact normalizeRecord_post k r0 e (hrn ▸ hmem e he)
      obtain ⟨r3, hr3, hsl⟩ := hsubl r2 hr2
      obtain ⟨r4, hr4, hchk4⟩ := mapExcept_ok_mem hm r3 hr3
      obtain ⟨hrn4, hcol4⟩ := normalizeRecordChecked_ok k r4 r3 hchk4
      have hnodup : (r3.map Prod.fst).Nodup := by
        rw [hrn4, map_fst_normalizeRecord]
        exact findCollision_none_nodup _ hcol4
      exact normalizeRecordChecked_fixed k r2 hpost (hnodup.sublist hsl)
    rw [mapExcept_ok_of_all hstep]
    cases de with
    | true =>
      rw [if_pos rfl] at hout
      show Except.ok (dropna_fields out) = Except.ok out
      rw [hout, dropna_fields_idem]
    | false =>
      show Except.ok out = Except.ok out
      rfl

/-- C9: when two raw field names of one record normalize to the same target
column, normalization reports a fatal schema conflict for the affected table,
naming two source fields whose targets coincide, and never silently merges
the colliding columns. -/
theorem schema_conflict_reported (k : Kind) (de : Bool) (rs : List Record) (r : Record)
    (hr : r ∈ rs) (hdup : ¬ ((sourceTargets k r).map Prod.snd).Nodup) :
    (∃ e, CryptoPandas.normalize k de rs = .error e) ∧
    ∃ s1 s2 t, normalizeRecordChecked k r = .error ⟨k, s1, s2⟩ ∧
      [(s1, t), (s2, t)].Sublist (sourceTargets k r) := by
  have hcol : ∃ p, findCollision (sourceTargets k r) = some p := by
    cases hf : findCollision (sourceTargets k r) with
    | none => exact absurd (findCollision_none_nodup _ hf) hdup
    | some p => exact ⟨p, rfl⟩
  obtain ⟨⟨s1, s2⟩, hp⟩ := hcol
  have herr : normalizeRecordChecked k r = .error ⟨k, s1, s2⟩ := by
    unfold normalizeRecordChecked
    rw [hp]
  constructor
  · obtain ⟨e2, he2⟩ := mapExcept_error_of_mem hr herr
    refine ⟨e2, ?_⟩
    unfold CryptoPandas.normalize
    rw [he2]
    rfl
  · obtain ⟨t, ht⟩ := findCollision_some_sublist _ _ _ hp
    exact ⟨s1, s2, t, herr, ht⟩

theorem dropna_prunes_all_missing_witness :
    (mapExcept (normalizeRecordChecked .fundingRates) c6raw = .ok c6rows
      ∧ allMissing c6rows "funding_rate" = true
      ∧ lookupVal "funding_rate" [("funding_rate", Value.null),
          ("symbol", Value.str "BNB/USDT")] = some .null) ∧
    ((CryptoPandas.normalize .fundingRates true c6raw = .ok (dropna_fields c6rows)
        ∧ ∀ r ∈ dropna_fields c6rows, lookupVal "funding_rate" r = none) ∧
      (CryptoPandas.normalize .fundingRates false c6raw = .ok c6rows
        ∧ ∀ r ∈ c6rows, lookupVal "funding_rate" r = none
            ∨ lookupVal "funding_rate" r = some .null)) :=
  ⟨⟨rfl, rfl, rfl⟩,
    dropna_prunes_all_missing .fundingRates c6raw "funding_rate" c6rows rfl rfl⟩

theorem normalize_idempotent_witness :
    CryptoPandas.normalize .other true [[("orderId", .str "abc")]]
        = .ok [[("order_id", .str "abc")]] ∧
    CryptoPandas.normalize .other true [[("order_id", .str "abc")]]
        = .ok [[("order_id", .str "abc")]] :=
  ⟨rfl, normalize_idempotent .other true [[("orderId", .str "abc")]]
    [[("order_id", .str "abc")]] rfl⟩

theorem schema_conflict_reported_witness :
    (¬ ((sourceTargets .fundingRates c9record).map Prod.snd).Nodup) ∧
    ((∃ e, CryptoPandas.normalize .fundingRates true [c9record] = .error e) ∧
      ∃ s1 s2 t, normalizeRecordChecked .fundingRates c9record = .error ⟨.fundingRates, s1, s2⟩ ∧
        [(s1, t), (s2, t)].Sublist (sourceTargets .fundingRates c9record)) :=
  ⟨by decide, schema_conflict_reported .fundingRates true [c9record] c9record
    (List.mem_cons_self c9record []) (by decide)⟩

theorem gather_step_getElem (calls : List α) (run : α → β) (order : List ℕ)
    (acc : List (Option β)) (hlen : acc.length = calls.length) (j : ℕ) :
    (order.foldl (fun acc i =>
      match calls[i]? with
      | some c => acc.set i (some (run c))
      | none => acc) acc)[j]? =
    if j ∈ order ∧ j < calls.length then (calls[j]?.map fun c => some (run c))
    else acc[j]? := by
  induction order generalizing acc with
  | nil => simp
  | cons i rest ih =>
    rw [List.foldl_cons]
    have hlen2 : (match calls[i]? with
        | some c => acc.set i (some (run c))
        | none => acc).length = calls.length := by
      cases calls[i]? <;> simp [hlen]
    rw [ih _ hlen2]
    by_cases hjr : j ∈ rest ∧ j < calls.length
    · rw [if_pos hjr, if_pos ⟨List.mem_cons_of_mem i hjr.1, hjr.2⟩]
    · rw [if_neg hjr]
      by_cases hij : i = j
      · subst hij
        by_cases hi : i < calls.length
        · have hc : calls[i]? = some calls[i] := List.getElem?_eq_getElem hi
          rw [hc]
          simp only []
          rw [if_pos ⟨List.mem_cons_self i rest, hi⟩]
          rw [List.getElem?_set_self (by omega)]
          rfl
        · have hc : calls[i]? = none := List.getElem?_eq_none (by omega)
          rw [hc]
          simp only []
          rw [if_neg fun hcon => hi hcon.2]
      · have hstep : (match calls[i]? with
            | some c => acc.set i (some (run c))
            | none => acc)[j]? = acc[j]? := by
          cases calls[i]? with
          | some c => exact List.getElem?_set_ne hij
          | none => rfl
        rw [hstep]
        rw [if_neg ?hneg]
        case hneg =>
          intro hjc
          rcases List.mem_cons.mp hjc.1 with h1 | h1
          · exact hij h1.symm
          · exact hjr ⟨h1, hjc.2⟩

theorem async_concat_results_perm (calls : List α) (run : α → β) (order : List ℕ)
    (hperm : order.Perm (List.range calls.length)) :
    async_concat_results calls run order = calls.map fun c => some (run c) := by
  apply List.ext_getElem?_iff.mpr
  intro j
  unfold async_concat_results
  rw [gather_step_getElem calls run order _ (by simp) j]
  rw [List.getElem?_map]
  by_cases hj : j < calls.length
  · have hmem : j ∈ order := hperm.mem_iff.mpr (List.mem_range.mpr hj)
    rw [if_pos ⟨hmem, hj⟩]
  · rw [if_neg fun hcon => hj hcon.2]
    rw [List.getElem?_eq_none (by simp; omega), List.getElem?_eq_none (by omega)]
    rfl

theorem gatherStep2_rowlen (callss : List (List α)) (run : α → β) (p : ℕ × ℕ)
    (acc : List (List (Option β)))
    (hrow : ∀ i : ℕ, (acc[i]?).map List.length = (callss[i]?).map List.length) :
    ∀ i : ℕ, ((gatherStep2 callss run acc p)[i]?).map List.length
      = (callss[i]?).map List.length := by
  intro i
  unfold gatherStep2
  cases hg : get2 callss p.1 p.2 with
  | none => exact hrow i
  | some c =>
    show ((acc.set p.1 ((acc.getD p.1 []).set p.2 (some (run c))))[i]?).map List.length = _
    rw [List.getElem?_set]
    by_cases hai : p.1 = i
    · have hcs : ∃ cs, callss[p.1]? = some cs := by
        unfold get2 at hg
        cases hx : callss[p.1]? with
        | none => rw [hx] at hg; cases hg
        | some cs => exact ⟨cs, rfl⟩
      obtain ⟨cs, hcs⟩ := hcs
      have hsome : acc[p.1]?.map List.length = some cs.length := by rw [hrow p.1, hcs]; rfl
      have halen : p.1 < acc.length := by
        cases hacc : acc[p.1]? with
        | none => rw [hacc] at hsome; cases hsome
        | some row => exact (List.getElem?_eq_some_iff.mp hacc).1
      rw [if_pos hai, ← hai, if_pos halen]
      cases hacc : acc[p.1]? with
      | none => rw [hacc] at hsome; cases hsome
      | some row =>
        have hgd : acc.getD p.1 [] = row := by
          rw [List.getD_eq_getElem?_getD, hacc]
          rfl
        rw [hgd]
        simp only [Option.map_some', List.length_set]
        rw [← hrow p.1, hacc]
        rfl
    · rw [if_neg hai]
      exact hrow i

theorem gatherStep2_get2 (callss : List (List α)) (run : α → β) (p : ℕ × ℕ)
    (acc : List (List (Option β)))
    (hrow : ∀ i : ℕ, (acc[i]?).map List.length = (callss[i]?).map List.length)
    (i j : ℕ) :
    get2 (gatherStep2 callss run acc p) i j =
      if p = (i, j) ∧ (get2 callss i j).isSome
      then (get2 callss i j).map fun c => some (run c)
      else get2 acc i j := by
  unfold gatherStep2
  cases hg : get2 callss p.1 p.2 with
  | none =>
    have hno : ¬(p = (i, j) ∧ (get2 callss i j).isSome) := by
      intro hcon
      obtain ⟨hp, hs⟩ := hcon
      subst hp
      rw [hg] at hs
      cases hs
    rw [if_neg hno]
    rfl
  | some c =>
    have hcs2 : ∃ cs, callss[p.1]? = some cs ∧ cs[p.2]? = some c := by
      unfold get2 at hg
      cases hx : callss[p.1]? with
      | none => rw [hx] at hg; cases hg
      | some cs => rw [hx] at hg; exact ⟨cs, rfl, hg⟩
    obtain ⟨cs, hcs, hc⟩ := hcs2
    have hsome : acc[p.1]?.map List.length = some cs.length := by rw [hrow p.1, hcs]; rfl
    have halen : p.1 < acc.length := by
      cases hacc : acc[p.1]? with
      | none => rw [hacc] at hsome; cases hsome
      | some row => exact (List.getElem?_eq_some_iff.mp hacc).1
    cases hacc : acc[p.1]? with
    | none => rw [hacc] at hsome; cases hsome
    | some row =>
      have hgd : acc.getD p.1 [] = row := by
        rw [List.getD_eq_getElem?_getD, hacc]
        rfl
      have hrl : row.length = cs.length := by
        rw [hacc] at hsome
        simpa using hsome
      show ((acc.set p.1 ((acc.getD p.1 []).set p.2 (some (run c))))[i]?.bind
          fun r => r[j]?) = _
      rw [hgd, List.getElem?_set]
      by_cases hai : p.1 = i
      · subst hai
        rw [if_pos rfl, if_pos halen]
        show ((row.set p.2 (some (run c)))[j]?) = _
        rw [List.getElem?_set]
        by_cases hbj : p.2 = j
        · subst hbj
          have hlt : p.2 < row.length := by
            rw [hrl]
            exact (List.getElem?_eq_some_iff.mp hc).1
          rw [if_pos rfl, if_pos hlt]
          have hgij : get2 callss p.1 p.2 = some c := by
            unfold get2
            rw [hcs]
            exact hc
          rw [if_pos ⟨Prod.mk.eta.symm, by rw [hgij]; rfl⟩, hgij]
          rfl
        · rw [if_neg hbj]
          have hno : ¬(p = (p.1, j) ∧ (get2 callss p.1 j).isSome) := by
            intro hcon
            exact hbj (congrArg Prod.snd hcon.1)
          rw [if_neg hno]
          show row[j]? = acc[p.1]?.bind fun r => r[j]?
          rw [hacc]
          rfl
      · rw [if_neg hai]
        have hno : ¬(p = (i, j) ∧ (get2 callss i j).isSome) := by
          intro hcon
          exact hai (congrArg Prod.fst hcon.1)
        rw [if_neg hno]
        rfl

theorem gather2_foldl_rowlen (callss : List (List α)) (run : α → β) (order : List (ℕ × ℕ))
    (acc : List (List (Option β)))
    (hrow : ∀ i : ℕ, (acc[i]?).map List.length = (callss[i]?).map List.length) :
    ∀ i : ℕ, ((order.foldl (gatherStep2 callss run) acc)[i]?).map List.length
      = (callss[i]?).map List.length := by
  induction order generalizing acc with
  | nil => exact hrow
  | cons p rest ih =>
    rw [List.foldl_cons]
    exact ih _ (gatherStep2_rowlen callss run p acc hrow)

theorem gather2_foldl_get2 (callss : List (List α)) (run : α → β) (order : List (ℕ × ℕ))
    (acc : List (List (Option β)))
    (hrow : ∀ i : ℕ, (acc[i]?).map List.length = (callss[i]?).map List.length)
    (i j : ℕ) :
    get2 (order.foldl (gatherStep2 callss run) acc) i j =
      if (i, j) ∈ order ∧ (get2 callss i j).isSome
      then (get2 callss i j).map fun c => some (run c)
      else get2 acc i j := by
  induction order generalizing acc with
  | nil => simp
  | cons p rest ih =>
    rw [List.foldl_cons, ih _ (gatherStep2_rowlen callss run p acc hrow)]
    by_cases hjr : (i, j) ∈ rest ∧ (get2 callss i j).isSome
    · rw [if_pos hjr, if_pos ⟨List.mem_cons_of_mem p hjr.1, hjr.2⟩]
    · rw [if_neg hjr, gatherStep2_get2 callss run p acc hrow i j]
      by_cases hp : p = (i, j) ∧ (get2 callss i j).isSome
      · rw [if_pos hp, if_pos ⟨hp.1 ▸ List.mem_cons_self p rest, hp.2⟩]
      · rw [if_neg hp]
        by_cases hcon : (i, j) ∈ p :: rest ∧ (get2 callss i j).isSome
        · exfalso
          rcases List.mem_cons.mp hcon.1 with h1 | h1
          · exact hp ⟨h1.symm, hcon.2⟩
          · exact hjr ⟨h1, hcon.2⟩
        · rw [if_neg hcon]

theorem mem_allPairs (callss : List (List α)) (i j : ℕ) :
    (i, j) ∈ allPairs callss ↔ i < callss.length ∧ j < (callss.getD i []).length := by
  unfold allPairs
  simp only [List.mem_flatMap, List.mem_range, List.mem_map, Prod.mk.injEq]
  constructor
  · rintro ⟨a, ha, b, hb, hab⟩
    obtain ⟨rfl, rfl⟩ := And.intro hab.1.symm hab.2.symm
    exact ⟨ha, hb⟩
  · rintro ⟨hi, hj⟩
    exact ⟨i, hi, j, hj, rfl, rfl⟩

theorem async_concat_results_nested_perm (callss : List (List α)) (run : α → β) (order : List (ℕ × ℕ))
    (hperm : order.Perm (allPairs callss)) :
    async_concat_results_nested callss run order = callss.map fun cs => cs.map fun c => some (run c) := by
  have hrow0 : ∀ i : ℕ, ((callss.map fun cs => (List.replicate cs.length (none : Option β)))[i]?).map
      List.length = (callss[i]?).map List.length := by
    intro i
    rw [List.getElem?_map]
    cases callss[i]? <;> simp
  unfold async_concat_results_nested
  apply List.ext_getElem?_iff.mpr
  intro i
  have hlenfin := gather2_foldl_rowlen callss run order _ hrow0 i
  rw [List.getElem?_map]
  cases hci : callss[i]? with
  | none =>
    rw [hci] at hlenfin
    simp only [Option.map_none'] at hlenfin
    cases hfin : (order.foldl (gatherStep2 callss run)
        (callss.map fun cs => List.replicate cs.length none))[i]? with
    | none => rfl
    | some row => rw [hfin] at hlenfin; cases hlenfin
  | some cs =>
    rw [hci] at hlenfin
    cases hfin : (order.foldl (gatherStep2 callss run)
        (callss.map fun cs => List.replicate cs.length none))[i]? with
    | none => rw [hfin] at hlenfin; cases hlenfin
    | some row =>
      rw [hfin] at hlenfin
      have hrl : row.length = cs.length := by simpa using hlenfin
      have hrows : row = cs.map fun c => some (run c) := by
        apply List.ext_getElem?_iff.mpr
        intro j
        have hg := gather2_foldl_get2 callss run order _ hrow0 i j
        have hrowj : row[j]? = get2 (order.foldl (gatherStep2 callss run)
            (callss.map fun cs => List.replicate cs.length none)) i j := by
          unfold get2
          rw [hfin]
          rfl
        rw [hrowj, hg]
        by_cases hj : j < cs.length
        · have hgc : get2 callss i j = some cs[j] := by
            unfold get2
            rw [hci]
            show cs[j]? = some cs[j]
            exact List.getElem?_eq_getElem hj
          have hmem : (i, j) ∈ order := by
            rw [hperm.mem_iff, mem_allPairs]
            refine ⟨(List.getElem?_eq_some_iff.mp hci).1, ?_⟩
            have hgdi : callss.getD i [] = cs := by
              rw [List.getD_eq_getElem?_getD, hci]
              rfl
            rw [hgdi]
            exact hj
          rw [if_pos ⟨hmem, by rw [hgc]; rfl⟩, hgc, List.getElem?_map,
            List.getElem?_eq_getElem hj]
        · have hgc : get2 callss i j = none := by
            unfold get2
            rw [hci]
            show cs[j]? = none
            exact List.getElem?_eq_none (by omega)
          rw [if_neg (fun hcon => by rw [hgc] at hcon; cases hcon.2)]
          have hini : get2 (callss.map fun cs => (List.replicate cs.length (none : Option β))) i j
              = none := by
            unfold get2
            rw [List.getElem?_map, hci]
            show (List.replicate cs.length (none : Option β))[j]? = none
            rw [List.getElem?_eq_none (by simpa using hj)]
          rw [hini, List.getElem?_map, List.getElem?_eq_none (by omega : cs.length ≤ j)]
          rfl
      rw [hrows]
      rfl

theorem gatherFailFast_first_error (pre : List (Except ε β)) (e : ε)
    (post : List (Except ε β)) (hpre : ∀ x ∈ pre, ∃ b, x = .ok b) :
    gatherFailFast (pre ++ .error e :: post) = .error e := by
  induction pre with
  | nil => rfl
  | cons x xs ih =>
    obtain ⟨b, rfl⟩ := hpre x (List.mem_cons_self x xs)
    show (gatherFailFast (xs ++ .error e :: post)).map _ = .error e
    rw [ih fun y hy => hpre y (List.mem_cons_of_mem _ hy)]
    rfl

theorem checkMax_warnings (pol : BoundPolicy) (s f : String) (mx : Option ℚ) (v : ℚ) :
    ∀ w ∈ (checkMax pol s f mx v).2, w = ⟨s, f⟩ := by
  intro w hw
  unfold checkMax at hw
  split at hw
  · split at hw
    · split at hw
      · cases hw
      · simpa using hw
    · cases hw
  · cases hw

theorem checkBound_warnings (pol : BoundPolicy) (s f : String) (mn mx : Option ℚ) (v : ℚ) :
    ∀ w ∈ (checkBound pol s f mn mx v).2, w = ⟨s, f⟩ := by
  intro w hw
  unfold checkBound at hw
  split at hw
  · split at hw
    · split at hw
      · cases hw
      · simpa using hw
    · exact checkMax_warnings pol s f mx v w hw
  · exact checkMax_warnings pol s f mx v w hw

theorem priceCheck_warnings (mc : MarketConstraints) (pPol : BoundPolicy) (r : OrderRow) :
    ∀ w ∈ (priceCheck mc pPol r).2, w = ⟨r.symbol, "price"⟩ := by
  intro w hw
  unfold priceCheck at hw
  split at hw
  · exact checkBound_warnings _ _ _ _ _ _ w hw
  · cases hw

theorem costCheck_warnings (mc : MarketConstraints) (vPol : BoundPolicy) (r : OrderRow) :
    ∀ w ∈ (costCheck mc vPol r).2, w = ⟨r.symbol, "cost"⟩ := by
  intro w hw
  unfold costCheck at hw
  split at hw
  · exact checkBound_warnings _ _ _ _ _ _ w hw
  · cases hw

theorem amountCheck_some (mc : MarketConstraints) (vPol : BoundPolicy) (r : OrderRow)
    (a : ℚ) (ha : r.amount = some a) :
    amountCheck mc vPol r
      = ((some (checkBound vPol r.symbol "amount" mc.minAmount mc.maxAmount a).1),
        (checkBound vPol r.symbol "amount" mc.minAmount mc.maxAmount a).2) := by
  unfold amountCheck
  rw [ha]

theorem enforceLimits_amount (mc : MarketConstraints) (pPol vPol : BoundPolicy)
    (r : OrderRow) (a : ℚ) (ha : r.amount = some a) :
    (enforceLimits mc pPol vPol r).1.amount
        = some (checkBound vPol r.symbol "amount" mc.minAmount mc.maxAmount a).1 ∧
    (enforceLimits mc pPol vPol r).2.filter (fun w => w.offendingField == "amount")
        = (checkBound vPol r.symbol "amount" mc.minAmount mc.maxAmount a).2 := by
  constructor
  · show (amountCheck mc vPol r).1 = _
    rw [amountCheck_some mc vPol r a ha]
  · show ((priceCheck mc pPol r).2 ++ (amountCheck mc vPol r).2
        ++ (costCheck mc vPol r).2).filter (fun w => w.offendingField == "amount") = _
    rw [List.filter_append, List.filter_append]
    have hpr : (priceCheck mc pPol r).2.filter (fun w => w.offendingField == "amount") = [] := by
      rw [List.filter_eq_nil_iff]
      intro w hw
      rw [priceCheck_warnings mc pPol r w hw]
      show ¬(("price" : String) == "amount") = true
      decide
    have hco : (costCheck mc vPol r).2.filter (fun w => w.offendingField == "amount") = [] := by
      rw [List.filter_eq_nil_iff]
      intro w hw
      rw [costCheck_warnings mc vPol r w hw]
      show ¬(("cost" : String) == "amount") = true
      decide
    have ham : (amountCheck mc vPol r).2.filter (fun w => w.offendingField == "amount")
        = (amountCheck mc vPol r).2 := by
      rw [List.filter_eq_self]
      intro w hw
      have hwa : w = ⟨r.symbol, "amount"⟩ := by
        rw [amountCheck_some mc vPol r a ha] at hw
        exact checkBound_warnings _ _ _ _ _ _ w hw
      rw [hwa]
      show (("amount" : String) == "amount") = true
      decide
    rw [hpr, hco, ham, List.nil_append, List.append_nil]
    rw [amountCheck_some mc vPol r a ha]

/-- C4: when a rounded value violates a resolved finite bound, policy clip
replaces it with the nearest bound and emits no warning for that value, while
policy warn leaves it unchanged and emits exactly one non-fatal warning
record for it; shown for a below-minimum amount through `enforceLimits` and
for an above-maximum value through `checkBound`. -/
theorem clip_warn_policy (mc : MarketConstraints) (pPol : BoundPolicy) (r : OrderRow)
    (a m : ℚ) (hamt : r.amount = some a) (hmin : mc.minAmount = some m) (hviol : a < m) :
    ((enforceLimits mc pPol .clip r).1.amount = some m ∧
      (enforceLimits mc pPol .clip r).2.filter (fun w => w.offendingField == "amount") = []) ∧
    ((enforceLimits mc pPol .warn r).1.amount = some a ∧
      (enforceLimits mc pPol .warn r).2.filter (fun w => w.offendingField == "amount")
        = [⟨r.symbol, "amount"⟩]) ∧
    (∀ (s fld : String) (v m2 : ℚ), m2 < v →
      checkBound .clip s fld none (some m2) v = (m2, []) ∧
      checkBound .warn s fld none (some m2) v = (v, [⟨s, fld⟩])) := by
  have hclip : checkBound .clip r.symbol "amount" mc.minAmount mc.maxAmount a = (m, []) := by
    rw [hmin]
    simp only [checkBound]
    rw [if_pos hviol]
  have hwarn : checkBound .warn r.symbol "amount" mc.minAmount mc.maxAmount a
      = (a, [⟨r.symbol, "amount"⟩]) := by
    rw [hmin]
    simp only [checkBound]
    rw [if_pos hviol]
  refine ⟨⟨?_, ?_⟩, ⟨?_, ?_⟩, ?_⟩
  · rw [(enforceLimits_amount mc pPol .clip r a hamt).1, hclip]
  · rw [(enforceLimits_amount mc pPol .clip r a hamt).2, hclip]
  · rw [(enforceLimits_amount mc pPol .warn r a hamt).1, hwarn]
  · rw [(enforceLimits_amount mc pPol .warn r a hamt).2, hwarn]
  · intro s fld v m2 hv
    constructor
    · simp only [checkBound, checkMax]
      rw [if_pos hv]
    · simp only [checkBound, checkMax]
      rw [if_pos hv]

/-- C8: absent precision or limit sub-fields make `constraints_for`
substitute the unconstrained sentinel for that specific bound instead of
failing the lookup, and a value is never clipped nor warned about against a
bound equal to the sentinel. -/
theorem unconstrained_sentinel (sym : String) (markets : List (String × MarketMeta))
    (meta : MarketMeta) (hlk : lookupMarket sym markets = some meta) :
    (∃ mc, constraints_for sym markets = .ok mc ∧
      (meta.limits = none →
        mc.minPrice = none ∧ mc.maxPrice = none ∧ mc.minAmount = none ∧
        mc.maxAmount = none ∧ mc.minCost = none ∧ mc.maxCost = none) ∧
      (meta.precision = none → mc.pricePrecision = none ∧ mc.amountPrecision = none)) ∧
    (∀ (pol : BoundPolicy) (fld : String) (v : ℚ),
      checkBound pol sym fld none none v = (v, [])) ∧
    (∀ (pol : BoundPolicy) (fld : String) (v m : ℚ), ¬ m < v →
      checkBound pol sym fld none (some m) v = (v, [])) ∧
    (∀ (pol : BoundPolicy) (fld : String) (v m : ℚ), ¬ v < m →
      checkBound pol sym fld (some m) none v = (v, [])) := by
  refine ⟨?_, ?_, ?_, ?_⟩
  · unfold constraints_for
    rw [hlk]
    refine ⟨_, rfl, ?_, ?_⟩
    · intro hl
      rw [hl]
      exact ⟨rfl, rfl, rfl, rfl, rfl, rfl⟩
    · intro hp
      rw [hp]
      exact ⟨rfl, rfl⟩
  · intro pol fld v
    rfl
  · intro pol fld v m hv
    simp only [checkBound, checkMax]
    rw [if_neg hv]
  · intro pol fld v m hv
    simp only [checkBound]
    rw [if_neg hv]
    rfl

/-- C1: when `amount` is missing and `notional` is present, the resolved
amount before precision rounding is notional divided by the reference price —
the row's own price for limit orders, the exchange client's latest market
price for market orders; rows missing both are passed through unresolved by
`orders_dataframe_preprocessing` without an error. -/
theorem notional_volume_resolution (caps : ExchangeCaps)
    (markets : List (String × MarketMeta)) (pPol vPol : BoundPolicy) (r : OrderRow) :
    (∀ ntl : ℚ, r.amount = none → r.notional = some ntl →
      (∀ p, r.otype = .limit → r.price = some p →
        (resolveVolume caps r).amount = some (ntl / p)) ∧
      (∀ p, r.otype = .market → caps.lastPrice r.symbol = some p →
        (resolveVolume caps r).amount = some (ntl / p))) ∧
    (r.amount = none → r.notional = none →
      resolveVolume caps r = r ∧
      (orders_dataframe_preprocessing caps markets pPol vPol [r]).length = 1 ∧
      ∀ pr ∈ orders_dataframe_preprocessing caps markets pPol vPol [r],
        pr.1.amount = none) := by
  constructor
  · intro ntl ha hn
    constructor
    · intro p ht hp
      unfold resolveVolume
      rw [ha, hn]
      unfold referencePrice
      rw [ht, hp]
    · intro p ht hp
      unfold resolveVolume
      rw [ha, hn]
      unfold referencePrice
      rw [ht, hp]
  · intro ha hn
    have hres : resolveVolume caps r = r := by
      unfold resolveVolume
      rw [ha, hn]
    refine ⟨hres, rfl, ?_⟩
    intro pr hpr
    have hone : pr = preprocessRowTop caps markets pPol vPol r := by
      simpa [orders_dataframe_preprocessing] using hpr
    subst hone
    have hamt : (roundOrder caps (resolveVolume caps r)).amount = none := by
      rw [hres]
      show r.amount.map (caps.amountToPrecision r.symbol) = none
      rw [ha]
      rfl
    unfold preprocessRowTop
    cases hc : constraints_for r.symbol markets with
    | ok mc =>
      show (enforceLimits mc pPol vPol (roundOrder caps (resolveVolume caps r))).1.amount = none
      show (amountCheck mc vPol (roundOrder caps (resolveVolume caps r))).1 = none
      unfold amountCheck
      rw [hamt]
    | error s =>
      show (enforceLimits defaultConstraints pPol vPol
        (roundOrder caps (resolveVolume caps r))).1.amount = none
      show (amountCheck defaultConstraints vPol (roundOrder caps (resolveVolume caps r))).1 = none
      unfold amountCheck
      rw [hamt]

/-- C2: `orders_dataframe_preprocessing` emits its rows in exactly the input
row order, and the dispatcher's result slots (flat or nested input) appear in
the positional order of the input calls for every completion order of the
underlying concurrent calls. -/
theorem dispatch_preprocess_order_preserved (caps : ExchangeCaps)
    (markets : List (String × MarketMeta)) (pPol vPol : BoundPolicy)
    (orders : List OrderRow) {α β : Type} (calls : List α) (run : α → β)
    (order1 : List ℕ) (callss : List (List α)) (order2 : List (ℕ × ℕ))
    (h1 : order1.Perm (List.range calls.length)) (h2 : order2.Perm (allPairs callss)) :
    ((orders_dataframe_preprocessing caps markets pPol vPol orders).length = orders.length ∧
      ∀ i : ℕ, (orders_dataframe_preprocessing caps markets pPol vPol orders)[i]?
        = (orders[i]?).map (preprocessRowTop caps markets pPol vPol)) ∧
    async_concat_results calls run order1 = (calls.map fun c => some (run c)) ∧
    async_concat_results_nested callss run order2
      = (callss.map fun cs => cs.map fun c => some (run c)) := by
  refine ⟨⟨?_, ?_⟩, async_concat_results_perm calls run order1 h1,
    async_concat_results_nested_perm callss run order2 h2⟩
  · exact List.length_map _ _
  · intro i
    unfold orders_dataframe_preprocessing
    exact List.getElem?_map _ _ _

/-- C3: with return_exceptions enabled, a dispatch of n calls yields exactly
n slots in which each failing call's slot holds its exception and every other
slot holds its result, positions preserved and no sibling aborted, for every
completion order; with it disabled, the first failure propagates. -/
theorem return_exceptions_isolation {α ε β : Type} (calls : List α)
    (run : α → Except ε β) (order : List ℕ)
    (hperm : order.Perm (List.range calls.length)) :
    ((async_concat_results calls run order).length = calls.length ∧
      ∀ i : ℕ, (async_concat_results calls run order)[i]?
        = (calls[i]?).map fun c => some (run c)) ∧
    (∀ (pre post : List (Except ε β)) (e : ε), calls.map run = pre ++ .error e :: post →
      (∀ x ∈ pre, ∃ b, x = .ok b) → gatherFailFast (calls.map run) = .error e) := by
  have hg := async_concat_results_perm calls run order hperm
  refine ⟨⟨?_, ?_⟩, ?_⟩
  · rw [hg, List.length_map]
  · intro i
    rw [hg, List.getElem?_map]
  · intro pre post e heq hpre
    rw [heq]
    exact gatherFailFast_first_error pre e post hpre

/-- C10: `since` may be a pandas Timedelta string (that span before now) or a
dict of DateOffset parameters, each converted to an absolute timestamp before
the exchange call, while a None `since` is kept as None. -/
theorem since_argument_resolution (now : DateTimeParts) :
    resolve_since now none = none ∧
    (∀ s secs, parseTimedelta s = some secs →
      resolve_since now (some (.timedeltaStr s)) = some ((dtToSeconds now - secs) * 1000)) ∧
    parseTimedelta "7d" = some (7 * 86400) ∧
    (∀ d, resolve_since now (some (.offsetParams d)) =
      some (dtToSeconds (applyDateOffset d now) * 1000)) ∧
    (now.second = 0 →
      applyDateOffset ⟨some (-1), some 0, some 0, some 0⟩ now
        = ⟨now.day - 1, 0, 0, 0⟩) := by
  refine ⟨rfl, ?_, by decide, fun d => rfl, ?_⟩
  · intro s secs hs
    simp only [resolve_since]
    rw [hs]
    rfl
  · intro h0
    unfold applyDateOffset
    simp [h0, DateTimeParts.mk.injEq]
    try omega

theorem notional_volume_resolution_witness :
    (resolveVolume c1caps
        ⟨"BNB/USDT:USDT", "buy", .limit, some (65541/100), none, some 10, none⟩).amount
      = some (10 / (65541/100)) ∧
    (resolveVolume c1caps
        ⟨"BNB/USDT:USDT", "buy", .market, none, none, some 10, none⟩).amount
      = some (10 / 655) ∧
    resolveVolume c1caps ⟨"X", "sell", .limit, none, none, none, none⟩
      = ⟨"X", "sell", .limit, none, none, none, none⟩ ∧
    (orders_dataframe_preprocessing c1caps [] .warn .warn
        [⟨"X", "sell", .limit, none, none, none, none⟩]).length = 1 :=
  ⟨((notional_volume_resolution c1caps [] .warn .warn
      ⟨"BNB/USDT:USDT", "buy", .limit, some (65541/100), none, some 10, none⟩).1
        10 rfl rfl).1 (65541/100) rfl rfl,
   ((notional_volume_resolution c1caps [] .warn .warn
      ⟨"BNB/USDT:USDT", "buy", .market, none, none, some 10, none⟩).1
        10 rfl rfl).2 655 rfl rfl,
   ((notional_volume_resolution c1caps [] .warn .warn
      ⟨"X", "sell", .limit, none, none, none, none⟩).2 rfl rfl).1,
   ((notional_volume_resolution c1caps [] .warn .warn
      ⟨"X", "sell", .limit, none, none, none, none⟩).2 rfl rfl).2.1⟩

theorem clip_warn_policy_witness :
    ((enforceLimits ⟨none, none, none, none, some (1/100), none, none, none⟩ .warn .clip
        ⟨"BNB/USDT", "buy", .limit, none, some (1/1000), none, none⟩).1.amount
      = some (1/100) ∧
     (enforceLimits ⟨none, none, none, none, some (1/100), none, none, none⟩ .warn .clip
        ⟨"BNB/USDT", "buy", .limit, none, some (1/1000), none, none⟩).2.filter
          (fun w => w.offendingField == "amount") = []) ∧
    ((enforceLimits ⟨none, none, none, none, some (1/100), none, none, none⟩ .warn .warn
        ⟨"BNB/USDT", "buy", .limit, none, some (1/1000), none, none⟩).1.amount
      = some (1/1000) ∧
     (enforceLimits ⟨none, none, none, none, some (1/100), none, none, none⟩ .warn .warn
        ⟨"BNB/USDT", "buy", .limit, none, some (1/1000), none, none⟩).2.filter
          (fun w => w.offendingField == "amount") = [⟨"BNB/USDT", "amount"⟩]) :=
  have h := clip_warn_policy ⟨none, none, none, none, some (1/100), none, none, none⟩
    .warn ⟨"BNB/USDT", "buy", .limit, none, some (1/1000), none, none⟩
    (1/1000) (1/100) rfl rfl (by norm_num)
  ⟨h.1, h.2.1⟩

theorem unconstrained_sentinel_witness :
    (∃ mc, constraints_for "BNB/USDT" [("BNB/USDT", ⟨none, none⟩)] = .ok mc ∧
      (MarketMeta.limits ⟨none, none⟩ = none →
        mc.minPrice = none ∧ mc.maxPrice = none ∧ mc.minAmount = none ∧
        mc.maxAmount = none ∧ mc.minCost = none ∧ mc.maxCost = none) ∧
      (MarketMeta.precision ⟨none, none⟩ = none →
        mc.pricePrecision = none ∧ mc.amountPrecision = none)) ∧
    checkBound .clip "BNB/USDT" "amount" none none (1/1000) = (1/1000, []) ∧
    checkBound .warn "BNB/USDT" "amount" none none (1/1000) = (1/1000, []) :=
  have h := unconstrained_sentinel "BNB/USDT" [("BNB/USDT", ⟨none, none⟩)]
    ⟨none, none⟩ rfl
  ⟨h.1, h.2.1 .clip "amount" (1/1000), h.2.1 .warn "amount" (1/1000)⟩

theorem dispatch_preprocess_order_preserved_witness :
    (orders_dataframe_preprocessing c2caps [] .warn .warn
        [⟨"A", "buy", .limit, some 5, some 1, none, none⟩,
         ⟨"B", "sell", .market, none, some 2, none, none⟩]).length = 2 ∧
    (orders_dataframe_preprocessing c2caps [] .warn .warn
        [⟨"A", "buy", .limit, some 5, some 1, none, none⟩,
         ⟨"B", "sell", .market, none, some 2, none, none⟩])[1]?
      = (([⟨"A", "buy", .limit, some 5, some 1, none, none⟩,
          ⟨"B", "sell", .market, none, some 2, none, none⟩] : List OrderRow)[1]?).map
            (preprocessRowTop c2caps [] .warn .warn) ∧
    async_concat_results [10, 20, 30] (fun n => n + 1) [2, 0, 1]
      = ([10, 20, 30].map fun c => some (c + 1)) ∧
    async_concat_results_nested [[1, 2], [3]] (fun n => n + 1) [(1, 0), (0, 1), (0, 0)]
      = ([[1, 2], [3]].map fun cs => cs.map fun c => some (c + 1)) :=
  have h := dispatch_preprocess_order_preserved c2caps [] .warn .warn
    [⟨"A", "buy", .limit, some 5, some 1, none, none⟩,
     ⟨"B", "sell", .market, none, some 2, none, none⟩]
    [10, 20, 30] (fun n => n + 1) [2, 0, 1] [[1, 2], [3]] [(1, 0), (0, 1), (0, 0)]
    (by decide) (by decide)
  ⟨h.1.1, h.1.2 1, h.2.1, h.2.2⟩

theorem return_exceptions_isolation_witness :
    async_concat_results c3calls c3run [4, 2, 0, 3, 1]
      = [some (.ok 0), some (.ok 10), some (.error "boom"), some (.ok 30), some (.ok 40)] ∧
    (async_concat_results c3calls c3run [4, 2, 0, 3, 1]).length = 5 ∧
    gatherFailFast (c3calls.map c3run) = .error "boom" :=
  have h := return_exceptions_isolation c3calls c3run [4, 2, 0, 3, 1] (by decide)
  ⟨by rfl, h.1.1, h.2 [.ok 0, .ok 10] [.ok 30, .ok 40] "boom" (by rfl)
    (by
      intro x hx
      rcases List.mem_cons.mp hx with rfl | hx2
      · exact ⟨0, rfl⟩
      · rcases List.mem_cons.mp hx2 with rfl | hx3
        · exact ⟨10, rfl⟩
        · cases hx3)⟩

theorem since_argument_resolution_witness :
    resolve_since ⟨20000, 8, 30, 0⟩ none = none ∧
    resolve_since ⟨20000, 8, 30, 0⟩ (some (.timedeltaStr "7d"))
      = some ((dtToSeconds ⟨20000, 8, 30, 0⟩ - 7 * 86400) * 1000) ∧
    applyDateOffset ⟨some (-1), some 0, some 0, some 0⟩ ⟨20000, 8, 30, 0⟩
      = ⟨19999, 0, 0, 0⟩ :=
  have h := since_argument_resolution ⟨20000, 8, 30, 0⟩
  ⟨h.1, h.2.1 "7d" (7 * 86400) h.2.2.1, by
    have h2 := h.2.2.2.2 rfl
    simpa using h2⟩
